import Mathlib

/-!
# Verification of the novela theme's page-creation pass

A shallow embedding of `gatsby/node/createPages.js`: the utility functions
(`buildPaginatedPath`, `slugify`, `getUniqueListBy`), the per-source query
blocks, and the exported page-creation pipeline, together with proofs about
the properties the specification states for them.

JavaScript strings are modelled as Lean `String`/`List Char`; the possibly
missing (`undefined`) `author` field of an article is an `Option String`;
a thrown exception is an `Except` error value.
-/

namespace Novela

/-! ## Character-level helpers

`String.prototype.toLowerCase` and `String.prototype.normalize("NFD")`
followed by removal of the combining marks U+0300–U+036F are Unicode-table
functions of the runtime, not code of this repository; they are modelled
character by character for ASCII and a representative table of precomposed
Latin letters, leaving every other character unchanged. -/

/-- Models `toLowerCase`: ASCII letters are lowercased, and uppercase
precomposed Latin letters from the table map to their lowercase forms. -/
def jsToLower (c : Char) : Char :=
  if c = 'É' then 'é'
  else if c = 'À' then 'à'
  else if c = 'Ö' then 'ö'
  else if c = 'Ü' then 'ü'
  else if c = 'Ñ' then 'ñ'
  else if c = 'Ç' then 'ç'
  else c.toLower

/-- Models `normalize("NFD")` followed by stripping the combining marks in
U+0300–U+036F: each precomposed Latin letter in the table decomposes into its
base letter plus marks, and the marks are removed; other characters are
returned unchanged. -/
def stripDiacritic : Char → Char
  | 'á' => 'a' | 'à' => 'a' | 'â' => 'a' | 'ä' => 'a' | 'ã' => 'a'
  | 'é' => 'e' | 'è' => 'e' | 'ê' => 'e' | 'ë' => 'e'
  | 'í' => 'i' | 'ì' => 'i' | 'î' => 'i' | 'ï' => 'i'
  | 'ó' => 'o' | 'ò' => 'o' | 'ô' => 'o' | 'ö' => 'o' | 'õ' => 'o'
  | 'ú' => 'u' | 'ù' => 'u' | 'û' => 'u' | 'ü' => 'u'
  | 'ñ' => 'n' | 'ç' => 'c'
  | c => c

/-- The character class `[a-z0-9]` of the slug regexes. -/
def isSlugChar (c : Char) : Bool :=
  ('a' ≤ c && c ≤ 'z') || ('0' ≤ c && c ≤ '9')

/-- Models a global regex replace of every maximal run of characters
satisfying `bad` by the single character `rep` (the effect of
`replace(/[^a-z0-9]+/g, "-")` and `replace(/\/\/+/g, "/")`).  The flag
records whether the previous character belonged to a run already
replaced. -/
def replaceRuns (bad : Char → Bool) (rep : Char) : Bool → List Char → List Char
  | _, [] => []
  | inRun, c :: rest =>
    if bad c then
      if inRun then replaceRuns bad rep true rest
      else rep :: replaceRuns bad rep true rest
    else c :: replaceRuns bad rep false rest

/-- Drops a single leading hyphen, if present. -/
def dropLeadHyphen : List Char → List Char
  | [] => []
  | c :: rest => if c = '-' then rest else c :: rest

/-- Models `replace(/(^-|-$)+/g, "")`: one leading hyphen and one trailing
hyphen are removed (the regex can consume at most one at each end, except on
the two-character string `--`, where removing one at each end is the same
result). -/
def trimHyphens (l : List Char) : List Char :=
  ((dropLeadHyphen ((dropLeadHyphen l).reverse))).reverse

/-- `slugify` from the source: lowercase, strip diacritics, replace runs of
characters outside `[a-z0-9]` by single hyphens, trim hyphens at the ends,
join onto the base path with `/`, and collapse runs of slashes. -/
def slugify (str base : String) : String :=
  let slug :=
    trimHyphens
      (replaceRuns (fun c => !isSlugChar c) '-' false
        ((str.toList.map jsToLower).map stripDiacritic))
  String.mk (replaceRuns (fun c => c = '/') '/' false (base.toList ++ '/' :: slug))

/-- `buildPaginatedPath` from the source. -/
def buildPaginatedPath (index : Nat) (basePath : String) : String :=
  if basePath = "/" then
    if index > 1 then basePath ++ "page/" ++ toString index else basePath
  else
    if index > 1 then basePath ++ "/page/" ++ toString index else basePath

/-! ## The data model -/

/-- A normalized author record. -/
structure Author where
  name : String
  slug : String
deriving DecidableEq, Repr

/-- A normalized article record.  The `author` field is the raw
comma-separated author-name string of the post; `none` models a post whose
author field is missing (`undefined`), in which case reading a method off it
throws.  `dateForSEO` is modelled as the numeric value of the parsed date. -/
structure Article where
  id : String
  title : String
  slug : String
  author : Option String
  dateForSEO : Int
  secret : Bool
deriving DecidableEq, Repr

/-! ## Sorting by date

`articles.sort(byDate)` sorts with the comparator
`(a, b) => new Date(b.dateForSEO) - new Date(a.dateForSEO)`, i.e. stably in
descending date order.  It is modelled by a stable insertion sort with the
same comparator. -/

/-- Inserts an article into a descending-by-date list, after any article of
equal or later date (stability). -/
def insertByDate (a : Article) : List Article → List Article
  | [] => [a]
  | b :: rest =>
    if a.dateForSEO > b.dateForSEO then a :: b :: rest
    else b :: insertByDate a rest

/-- Models `Array.prototype.sort` with the `byDate` comparator: a stable sort
into descending `dateForSEO` order. -/
def sortByDate (l : List Article) : List Article :=
  l.foldl (fun acc a => insertByDate a acc) []

/-! ## `getUniqueListBy`

`new Map(arr.map(item => [item.name, item]))` builds a JS `Map`: keys keep
the insertion order of their first occurrence, and a repeated key overwrites
the stored value in place.  `[...map.values()]` then lists the values in key
order. -/

/-- One `Map.set` step of building `new Map` from an entry list: if the key
is already present its value is replaced in place, otherwise the entry is
appended. -/
def mapInsertAuthor (m : List (String × Author)) (a : Author) : List (String × Author) :=
  if m.any (fun p => p.1 = a.name) then
    m.map (fun p => if p.1 = a.name then (a.name, a) else p)
  else
    m ++ [(a.name, a)]

/-- `getUniqueListBy(arr, "name")` from the source, at its only call site
(key `"name"`). -/
def getUniqueListBy (arr : List Author) : List Author :=
  (arr.foldl mapInsertAuthor []).map Prod.snd

/-! ## Author matching -/

/-- Models `String.prototype.split(",")` on the character list: the list of
comma-separated fields (an empty string yields one empty field, as in JS). -/
def splitOnComma : List Char → List (List Char)
  | [] => [[]]
  | c :: rest =>
    if c = ',' then [] :: splitOnComma rest
    else
      match splitOnComma rest with
      | [] => [[c]]
      | g :: gs => (c :: g) :: gs

/-- Models `String.prototype.trim`: whitespace is dropped from both ends. -/
def trimChars (l : List Char) : List Char :=
  ((l.dropWhile Char.isWhitespace).reverse.dropWhile Char.isWhitespace).reverse

/-- The lowercased, trimmed author names listed in a raw author field:
`article.author.split(",").map(a => a.trim().toLowerCase())`. -/
def allAuthorsOf (field : String) : List (List Char) :=
  (splitOnComma field.toList).map (fun a => (trimChars a).map jsToLower)

/-- The fatal message thrown when resolving an article's authors fails
(the `catch` block of the article loop). -/
def authorNotFoundMsg (article : Article) : String :=
  "We could not find the Author for: \x22" ++ article.title ++
    "\x22. Provided author: undefined"

/-- The author-resolution step of the article loop.  The `filter` itself
cannot throw when the author field is a string — a name matching no author
merely yields an empty list — so the `catch` block fires exactly when the
`author` field is missing (`undefined`), where `.split` throws. -/
def authorsThatWroteTheArticle (authors : List Author) (article : Article) :
    Except String (List Author) :=
  match article.author with
  | none => .error (authorNotFoundMsg article)
  | some s =>
    .ok (authors.filter (fun author =>
      (allAuthorsOf s).any (fun a => a = author.name.toList.map jsToLower)))

/-- Models `String.prototype.includes`: `pat` occurs as a contiguous
substring of `l` (some tail of `l` has `pat` as a prefix). -/
def listIncludes (pat l : List Char) : Bool :=
  l.tails.any (fun t => pat.isPrefixOf t)

/-- The author-page article selection:
`articles.filter(a => a.author.toLowerCase().includes(author.name.toLowerCase())).filter(a => !a.secret)`.
When this runs, every article's author field is present (an article with a
missing author field already aborted the build in the article loop), so the
missing case is read as the empty string. -/
def articlesTheAuthorHasWritten (articles : List Article) (author : Author) :
    List Article :=
  (articles.filter (fun article =>
      listIncludes (author.name.toList.map jsToLower)
        ((article.author.getD "").toList.map jsToLower))).filter
    (fun article => !article.secret)

/-! ## "Next articles" selection -/

/-- The `next` computation of the article loop, line for line:
`slice(index+1, index+3)`; if empty, the first two; if a single element and
the list does not have exactly two articles, pad with the first article; and
no suggestions at all for a single-article list.  (`articles[0]` is written
`articles.take 1`; the pad branch is reachable only for a non-empty list,
where the two agree.) -/
def nextArticles (articles : List Article) (index : Nat) : List Article :=
  let next0 := (articles.drop (index + 1)).take 2
  let next1 := if next0.length = 0 then articles.take 2 else next0
  let next2 :=
    if next1.length = 1 ∧ articles.length ≠ 2 then next1 ++ articles.take 1
    else next1
  if articles.length = 1 then [] else next2

/-- The "next articles" selection as the specification words it: the empty
list whenever there is exactly one article; otherwise the up-to-two articles
at indices `i+1`, `i+2`; if that slice is empty, the first two articles; if
the slice has exactly one element and the total length is not two, that
element followed by the first article. -/
def nextSpecClaim (articles : List Article) (i : Nat) : List Article :=
  if articles.length = 1 then []
  else
    let s := (articles.drop (i + 1)).take 2
    if s.length = 0 then articles.take 2
    else if s.length = 1 ∧ articles.length ≠ 2 then s ++ articles.take 1
    else s

/-! ## The per-source query blocks

Each enabled source runs, inside one `try`/`catch`: the authors query, the
articles query, the assignment of the normalized authors, then the
assignment of the normalized articles.  A thrown error is caught (and
logged), keeping whatever assignments were already made.  The GraphQL layer
and the normalizers are external collaborators, passed as `Except`-valued
parameters; an `Except.error` models a rejected query (or a missing `data`
field) and a normalizer throw. -/

/-- One source's query results. -/
structure SourceData where
  authors : List Author
  articles : List Article
deriving DecidableEq, Repr

/-- Models `Array.prototype.map` with a normalizer that can throw: the first
error aborts the whole map. -/
def mapExcept (f : α → Except Unit β) : List α → Except Unit (List β)
  | [] => .ok []
  | a :: rest =>
    match f a with
    | .error e => .error e
    | .ok b =>
      match mapExcept f rest with
      | .error e => .error e
      | .ok bs => .ok (b :: bs)

/-- One source's `try`/`catch` block.  `qAuthors`/`qArticles` are the two
awaited query results (including the `.data.…edges` accesses), and
`normAuthor`/`normArticle` the per-edge normalizers.  The authors assignment
happens before the articles are normalized, so an error thrown while
normalizing articles is caught with the authors already assigned. -/
def querySource (qAuthors qArticles : Except Unit (List α))
    (normAuthor : α → Except Unit Author) (normArticle : α → Except Unit Article) :
    SourceData :=
  match qAuthors with
  | .error _ => ⟨[], []⟩
  | .ok aEdges =>
    match qArticles with
    | .error _ => ⟨[], []⟩
    | .ok artEdges =>
      match mapExcept normAuthor aEdges with
      | .error _ => ⟨[], []⟩
      | .ok as =>
        match mapExcept normArticle artEdges with
        | .error _ => ⟨as, []⟩
        | .ok arts => ⟨as, arts⟩

/-! ## The exported page-creation pipeline -/

/-- The three `dataSources` slots (netlify is always empty in the source). -/
structure DataSources where
  localSource : SourceData
  contentful : SourceData
  netlify : SourceData
deriving DecidableEq, Repr

/-- The theme options consumed by the pipeline, with the source's defaults. -/
structure ThemeOptions where
  basePath : String := "/"
  authorsPath : String := "/authors"
  authorsPage : Bool := true
  pageLength : Nat := 6
deriving DecidableEq, Repr

/-- The combined article list: all sources concatenated, sorted by date
descending. -/
def combinedArticles (ds : DataSources) : List Article :=
  sortByDate (ds.localSource.articles ++ ds.contentful.articles ++ ds.netlify.articles)

/-- The combined author list: all sources concatenated, deduplicated by
name. -/
def combinedAuthors (ds : DataSources) : List Author :=
  getUniqueListBy (ds.localSource.authors ++ ds.contentful.authors ++ ds.netlify.authors)

/-- The fatal configuration error thrown when no article or no author
survives aggregation. -/
def configErrorMsg : String :=
  "You must have at least one Author and Post. As reference you can view the example repository."

/-- One `createPaginatedPages` invocation, recorded by the data the claims
are about: the edges passed in and the path prefix. -/
structure PaginatedSpec where
  edges : List Article
  pathPrefix : String
deriving DecidableEq, Repr

/-- One `createPage` invocation for an individual article post. -/
structure ArticlePageSpec where
  path : String
  articleSlug : String
  authors : List Author
  next : List Article
deriving DecidableEq, Repr

/-- The full page-generation plan emitted by one run. -/
structure PagePlan where
  articlesListing : PaginatedSpec
  articlePages : List ArticlePageSpec
  authorListings : List PaginatedSpec
deriving DecidableEq, Repr

/-- The article loop: each article is resolved to its authors (a missing
author field throws the fatal author error) and gets an individual page at
its slug, with the "next" suggestions for its index. -/
def makeArticlePages (authors : List Author) (articles : List Article) (index : Nat) :
    List Article → Except String (List ArticlePageSpec)
  | [] => .ok []
  | article :: rest =>
    match authorsThatWroteTheArticle authors article with
    | .error e => .error e
    | .ok as =>
      match makeArticlePages authors articles (index + 1) rest with
      | .error e => .error e
      | .ok pages =>
        .ok ({ path := article.slug, articleSlug := article.slug, authors := as,
               next := nextArticles articles index } :: pages)

/-- The exported `createPages` pass after the sources have been queried:
aggregate, check the fatal configuration condition, create the paginated
articles listing from the non-secret articles, create one page per article
(secret ones included), and, when enabled, one paginated listing per
author. -/
def createPages (opts : ThemeOptions) (ds : DataSources) : Except String PagePlan :=
  let articles := combinedArticles ds
  let articlesThatArentSecret := articles.filter (fun article => !article.secret)
  let authors := combinedAuthors ds
  if articles.length = 0 ∨ authors.length = 0 then
    .error configErrorMsg
  else
    match makeArticlePages authors articles 0 articles with
    | .error e => .error e
    | .ok pages =>
      .ok { articlesListing := ⟨articlesThatArentSecret, opts.basePath⟩
            articlePages := pages
            authorListings :=
              if opts.authorsPage then
                authors.map (fun author =>
                  ⟨articlesTheAuthorHasWritten articles author, author.slug⟩)
              else [] }

/-! ## Specification-side formulations

Independent formulations of the spec's wording, to be compared with the
definitions read off the source. -/

/-- Removes, in each maximal run of occurrences of `rep`, all but one
occurrence (adjacent-duplicate removal for `rep`). -/
def squashRep (rep : Char) : List Char → List Char
  | [] => []
  | [c] => [c]
  | c :: d :: rest =>
    if c = rep ∧ d = rep then squashRep rep (d :: rest)
    else c :: squashRep rep (d :: rest)

/-- The spec's trimming: all leading and all trailing hyphens removed. -/
def trimHyphensSpec (l : List Char) : List Char :=
  ((l.dropWhile (fun c => c = '-')).reverse.dropWhile (fun c => c = '-')).reverse

/-- `slugify` as the specification words it: lowercase, strip diacritics,
replace each character outside `[a-z0-9]` by a hyphen collapsing runs, trim
leading and trailing hyphens, join onto the base path with `/`, and collapse
every run of slashes to a single slash. -/
def slugifySpec (str base : String) : String :=
  let masked := ((str.toList.map jsToLower).map stripDiacritic).map
      (fun c => if isSlugChar c then c else '-')
  let slug := trimHyphensSpec (squashRep '-' masked)
  String.mk (squashRep '/' (base.toList ++ '/' :: slug))

/-- No two adjacent occurrences of `rep`. -/
def NoTwo (rep : Char) (l : List Char) : Prop :=
  l.Chain' (fun a b => ¬(a = rep ∧ b = rep))

/-- The value stored under key `n` in a JS-`Map` entry list. -/
def lookupName (m : List (String × Author)) (n : String) : Option Author :=
  (m.find? (fun p => p.1 = n)).map Prod.snd

/-! ## Concrete demonstration data -/

def alice : Author := ⟨"Alice", "alice"⟩

def annAuthor : Author := ⟨"Ann", "ann"⟩

def artA : Article := ⟨"a", "Article A", "/a", some "Alice", 40, false⟩

def artB : Article := ⟨"b", "Article B", "/b", some "Alice", 30, false⟩

def artC : Article := ⟨"c", "Article C", "/c", some "Alice", 20, false⟩

def artD : Article := ⟨"d", "Article D", "/d", some "Alice", 10, false⟩

def artFirst : Article := ⟨"1", "First", "/first", some "Alice", 2, false⟩

def artHidden : Article := ⟨"2", "Hidden", "/hidden", some "Alice", 1, true⟩

def artOrphan : Article := ⟨"3", "Orphan", "/orphan", some "Nobody", 3, false⟩

def artAnnabelle : Article := ⟨"4", "Post", "/post", some "Annabelle", 0, false⟩

/-- A well-formed configuration: one author, one public and one secret
article. -/
def demoDS : DataSources := ⟨⟨[alice], [artFirst, artHidden]⟩, ⟨[], []⟩, ⟨[], []⟩⟩

/-- The plan `createPages` emits on `demoDS`. -/
def demoPlan : PagePlan :=
  { articlesListing := ⟨[artFirst], "/"⟩
    articlePages := [⟨"/first", "/first", [alice], [artHidden]⟩,
                     ⟨"/hidden", "/hidden", [alice], [artFirst, artHidden]⟩]
    authorListings := [⟨[artFirst], "alice"⟩] }

/-- A configuration with an article whose author string matches no known
author (but is a present string). -/
def orphanDS : DataSources := ⟨⟨[alice], [artFirst, artOrphan]⟩, ⟨[], []⟩, ⟨[], []⟩⟩

/-- A configuration with an article but no authors at all. -/
def noAuthorsDS : DataSources := ⟨⟨[], [artFirst]⟩, ⟨[], []⟩, ⟨[], []⟩⟩

/-! ## Helper lemmas -/

theorem makeArticlePages_map_path (authors : List Author) (all : List Article) :
    ∀ (rest : List Article) (idx : Nat) (pages : List ArticlePageSpec),
      makeArticlePages authors all idx rest = Except.ok pages →
      pages.map (fun p => p.path) = rest.map (fun a => a.slug) := by
  intro rest
  induction rest with
  | nil =>
    intro idx pages h
    simp only [makeArticlePages] at h
    injection h with h
    subst h
    rfl
  | cons a rest ih =>
    intro idx pages h
    simp only [makeArticlePages] at h
    cases ha : authorsThatWroteTheArticle authors a with
    | error e => rw [ha] at h; cases h
    | ok as =>
      rw [ha] at h
      cases hr : makeArticlePages authors all (idx + 1) rest with
      | error e => rw [hr] at h; cases h
      | ok ps =>
        rw [hr] at h
        injection h with h
        subst h
        simp [ih (idx + 1) ps hr]

/-! ## The claims -/

/-- C3: for every page index `n` and base path `b`, `buildPaginatedPath`
returns `b` itself when `n ≤ 1`; when `n > 1` it returns `b` followed by
`page/{n}` if `b` is exactly `"/"`, and `b` followed by `/page/{n}`
otherwise; in particular on base path `"/"` the path for `n = 2` is
`"/page/2"` and the path for `n = 1` is `"/"`. -/
theorem buildPaginatedPath_spec :
    (∀ (n : Nat) (b : String),
        buildPaginatedPath n b =
          if n ≤ 1 then b
          else if b = "/" then b ++ "page/" ++ toString n
          else b ++ "/page/" ++ toString n) ∧
    buildPaginatedPath 2 "/" = "/page/2" ∧ buildPaginatedPath 1 "/" = "/" := by
  refine ⟨fun n b => ?_, by decide, by decide⟩
  rcases Nat.lt_or_ge 1 n with h | h
  · have h1 : ¬n ≤ 1 := by omega
    by_cases hb : b = "/" <;> simp [buildPaginatedPath, hb, h, h1]
  · have h2 : ¬1 < n := by omega
    by_cases hb : b = "/" <;> simp [buildPaginatedPath, hb, h, h2]

/-- C9: for every article list of length exactly two, the "next" suggestion
for the second (last) article is the full two-element list: the wrap branch
includes the article itself in its own suggestions. -/
theorem next_of_second_in_pair (x y : Article) : nextArticles [x, y] 1 = [x, y] := rfl

/-- C5: if the combined article list is empty or the deduplicated author
list is empty, `createPages` throws the fatal configuration error and emits
no page. -/
theorem createPages_fatal_on_empty (opts : ThemeOptions) (ds : DataSources)
    (h : combinedArticles ds = [] ∨ combinedAuthors ds = []) :
    createPages opts ds = Except.error configErrorMsg := by
  have h' : (combinedArticles ds).length = 0 ∨ (combinedAuthors ds).length = 0 := by
    cases h with
    | inl h => exact Or.inl (by rw [h]; rfl)
    | inr h => exact Or.inr (by rw [h]; rfl)
  simp only [createPages]
  rw [if_pos h']

/-- C5 witness: a configuration with one article and no author is rejected
with the fatal configuration error even though articles exist. -/
theorem createPages_fatal_on_empty_witness :
    combinedArticles noAuthorsDS = [artFirst] ∧
    createPages {} noAuthorsDS = Except.error configErrorMsg :=
  ⟨by decide, createPages_fatal_on_empty {} noAuthorsDS (Or.inr rfl)⟩

/-- C1: contrary to the claim, an article whose (present) author string
matches no known author by comma-split case-insensitive name does NOT make
the pass throw: the `filter` returns the empty list without throwing, the
`catch` block never fires, and the page is created with an empty resolved
author list.  Here `"Nobody"` matches no author, yet `createPages` succeeds
and emits the orphan article's page with no authors. -/
theorem unmatched_author_not_fatal :
    authorsThatWroteTheArticle [alice] artOrphan = Except.ok [] ∧
    ∃ plan, createPages {} orphanDS = Except.ok plan ∧
      plan.articlePages.map (fun p => p.authors) = [[], [alice]] :=
  ⟨rfl, _, rfl, rfl⟩

/-- C6: whenever `createPages` succeeds, the edges passed to the paginated
public listing are exactly the non-secret combined articles, while an
individual page is created at the article's slug for every combined article,
the secret ones included. -/
theorem secret_filtering_spec (opts : ThemeOptions) (ds : DataSources) (plan : PagePlan)
    (h : createPages opts ds = Except.ok plan) :
    plan.articlesListing.edges =
      (combinedArticles ds).filter (fun a => !a.secret) ∧
    plan.articlePages.map (fun p => p.path) = (combinedArticles ds).map (fun a => a.slug) := by
  simp only [createPages] at h
  by_cases hc : (combinedArticles ds).length = 0 ∨ (combinedAuthors ds).length = 0
  · rw [if_pos hc] at h; cases h
  · rw [if_neg hc] at h
    cases hm : makeArticlePages (combinedAuthors ds) (combinedArticles ds) 0 (combinedArticles ds) with
    | error e => rw [hm] at h; cases h
    | ok pages =>
      rw [hm] at h
      injection h with h
      subst h
      exact ⟨rfl, makeArticlePages_map_path _ _ _ _ _ hm⟩

/-- C6 witness: on the demo configuration the secret article is excluded
from the listing edges but still gets its own page at its slug. -/
theorem secret_filtering_spec_witness :
    demoPlan.articlesListing.edges =
      (combinedArticles demoDS).filter (fun a => !a.secret) ∧
    demoPlan.articlePages.map (fun p => p.path) =
      (combinedArticles demoDS).map (fun a => a.slug) :=
  secret_filtering_spec {} demoDS demoPlan rfl

/-- C2: the sequential `next` computation agrees everywhere with the spec's
piecewise description: the up-to-two articles at indices `i+1`, `i+2`; the
first two articles if that slice is empty; the slice padded with the first
article if the slice is a single element and the total length is not two;
and the empty list whenever the list has exactly one article.  In
particular, on `[A,B,C,D]` the suggestion for `C` is `[D,A]`, and on a
two-element list the first article's suggestion is the second alone, with no
self-padding. -/
theorem nextArticles_spec :
    (∀ (l : List Article) (i : Nat), nextArticles l i = nextSpecClaim l i) ∧
    nextArticles [artA, artB, artC, artD] 2 = [artD, artA] ∧
    nextArticles [artA, artB] 0 = [artB] := by
  refine ⟨fun l i => ?_, rfl, rfl⟩
  show (let next0 := (l.drop (i + 1)).take 2
        let next1 := if next0.length = 0 then l.take 2 else next0
        let next2 :=
          if next1.length = 1 ∧ l.length ≠ 2 then next1 ++ l.take 1 else next1
        if l.length = 1 then [] else next2) = nextSpecClaim l i
  simp only [nextSpecClaim]
  split_ifs <;>
    first
      | rfl
      | (exfalso
         simp only [List.length_take, List.length_drop, ne_eq, not_and, not_not] at *
         omega)

theorem isPrefixOf_iff_exists (l₁ l₂ : List Char) :
    l₁.isPrefixOf l₂ = true ↔ ∃ t, l₁ ++ t = l₂ := by
  induction l₁ generalizing l₂ with
  | nil => simp [List.isPrefixOf]
  | cons a l ih =>
    cases l₂ with
    | nil => simp [List.isPrefixOf]
    | cons b l₂ =>
      simp only [List.isPrefixOf, Bool.and_eq_true, beq_iff_eq, ih, List.cons_append,
        List.cons.injEq]
      constructor
      · rintro ⟨rfl, t, rfl⟩
        exact ⟨t, rfl, rfl⟩
      · rintro ⟨t, rfl, rfl⟩
        exact ⟨rfl, t, rfl⟩

theorem listIncludes_iff (pat l : List Char) :
    listIncludes pat l = true ↔ ∃ s t, l = s ++ pat ++ t := by
  unfold listIncludes
  rw [List.any_eq_true]
  constructor
  · rintro ⟨tl, htl, hp⟩
    rw [List.mem_tails] at htl
    obtain ⟨s, hs⟩ := htl
    obtain ⟨t, ht⟩ := (isPrefixOf_iff_exists pat tl).1 hp
    exact ⟨s, t, by rw [← hs, ← ht, List.append_assoc]⟩
  · rintro ⟨s, t, rfl⟩
    refine ⟨pat ++ t, ?_, (isPrefixOf_iff_exists pat _).2 ⟨t, rfl⟩⟩
    rw [List.mem_tails]
    exact ⟨s, by rw [List.append_assoc]⟩

/-- C10: on author pages, an article is attributed to an author exactly when
it is a non-secret member of the list whose lowercased author string
contains the author's lowercased name as a contiguous substring — not the
comma-split exact matching of the article pages.  In particular the author
`"Ann"` is not resolved as an author of a post whose author field is
`"Annabelle"`, yet that post is attributed to `"Ann"` on the author page. -/
theorem author_page_substring_attribution :
    (∀ (articles : List Article) (author : Author) (article : Article),
        article ∈ articlesTheAuthorHasWritten articles author ↔
          article ∈ articles ∧ article.secret = false ∧
            ∃ s t, (article.author.getD "").toList.map jsToLower =
                s ++ author.name.toList.map jsToLower ++ t) ∧
    authorsThatWroteTheArticle [annAuthor] artAnnabelle = Except.ok [] ∧
    articlesTheAuthorHasWritten [artAnnabelle] annAuthor = [artAnnabelle] := by
  refine ⟨fun articles author article => ?_, rfl, rfl⟩
  unfold articlesTheAuthorHasWritten
  rw [List.mem_filter, List.mem_filter]
  rw [listIncludes_iff]
  constructor
  · rintro ⟨⟨h1, h2⟩, h3⟩
    refine ⟨h1, by simpa using h3, h2⟩
  · rintro ⟨h1, h2, h3⟩
    exact ⟨⟨h1, h3⟩, by simpa using h2⟩

/-- C8 counterexample: a source whose articles normalizer throws (after the
authors assignment already happened) contributes its normalized authors, not
an empty result set, refuting the claim that every caught per-source error
degrades the source to empty authors and empty articles. -/
theorem querySource_partial_counterexample :
    querySource (α := Unit) (Except.ok [()]) (Except.ok [()])
        (fun _ => Except.ok alice) (fun _ => Except.error ()) =
      ⟨[alice], []⟩ ∧
    ([alice] : List Author) ≠ [] :=
  ⟨rfl, by decide⟩

/-- C8 (amended): a caught per-source error always leaves the source's
articles empty and the build running, but the authors it contributes depend
on where the error arose: a failed authors query, articles query, or authors
normalization leaves both lists empty, while a failed articles normalization
keeps the authors that were assigned just before it. -/
theorem querySource_on_error (qa qarts : Except Unit (List α))
    (normAuthor : α → Except Unit Author) (normArticle : α → Except Unit Article) :
    (∀ e, qa = Except.error e →
      querySource qa qarts normAuthor normArticle = ⟨[], []⟩) ∧
    (∀ aE e, qa = Except.ok aE → qarts = Except.error e →
      querySource qa qarts normAuthor normArticle = ⟨[], []⟩) ∧
    (∀ aE bE e, qa = Except.ok aE → qarts = Except.ok bE →
      mapExcept normAuthor aE = Except.error e →
      querySource qa qarts normAuthor normArticle = ⟨[], []⟩) ∧
    (∀ aE bE as e, qa = Except.ok aE → qarts = Except.ok bE →
      mapExcept normAuthor aE = Except.ok as →
      mapExcept normArticle bE = Except.error e →
      querySource qa qarts normAuthor normArticle = ⟨as, []⟩) := by
  refine ⟨?_, ?_, ?_, ?_⟩
  · rintro e rfl
    rfl
  · rintro aE e rfl rfl
    rfl
  · rintro aE bE e rfl rfl h
    simp only [querySource, h]
  · rintro aE bE as e rfl rfl h h'
    simp only [querySource, h, h']

/-- C8 witness: a source whose authors query is rejected contributes the
empty result set, and one whose articles normalizer throws keeps its
authors. -/
theorem querySource_on_error_witness :
    querySource (α := Unit) (Except.error ()) (Except.ok [])
        (fun _ => Except.ok alice) (fun _ => Except.error ()) = ⟨[], []⟩ ∧
    querySource (α := Unit) (Except.ok [()]) (Except.ok [()])
        (fun _ => Except.ok alice) (fun _ => Except.ok artFirst) = ⟨[alice], [artFirst]⟩ :=
  ⟨(querySource_on_error (Except.error ()) (Except.ok [])
      (fun _ => Except.ok alice) (fun _ => Except.error ())).1 () rfl,
    rfl⟩

theorem find?_replace (m : List (String × Author)) (k : String) (v : Author) (n : String) :
    (m.map (fun p => if p.1 = k then (k, v) else p)).find? (fun p => p.1 = n) =
      if n = k then (if m.any (fun p => p.1 = k) then some (k, v) else none)
      else m.find? (fun p => p.1 = n) := by
  induction m with
  | nil => by_cases h : n = k <;> simp [h]
  | cons p m ih =>
    simp only [List.map_cons, List.any_cons]
    by_cases hpk : p.1 = k
    · rw [if_pos hpk]
      by_cases hnk : n = k
      · subst hnk
        rw [List.find?_cons_of_pos _ (by simp), if_pos rfl,
          if_pos (show (decide (p.1 = n) || m.any fun p => decide (p.1 = n)) = true by
            simp [hpk])]
      · have hkn : ¬((k, v).1 = n) := fun h => hnk h.symm
        rw [List.find?_cons_of_neg _ (by simpa using hkn), ih, if_neg hnk, if_neg hnk]
        have hpn : ¬(p.1 = n) := by rw [hpk]; exact fun h => hnk h.symm
        rw [List.find?_cons_of_neg _ (by simpa using hpn)]
    · rw [if_neg hpk]
      by_cases hnk : n = k
      · have hpn : ¬(p.1 = n) := by rw [hnk]; exact hpk
        rw [List.find?_cons_of_neg _ (by simpa using hpn), ih, if_pos hnk, if_pos hnk]
        by_cases hany : (m.any fun p => decide (p.1 = k)) = true
        · rw [if_pos hany, if_pos (by simp [hany])]
        · have hcond : ¬((decide (p.1 = k) || m.any fun p => decide (p.1 = k)) = true) := by
            simp only [Bool.or_eq_true, decide_eq_true_eq]
            rintro (h | h)
            · exact hpk h
            · exact hany h
          rw [if_neg hany, if_neg hcond]
      · by_cases hpn : p.1 = n
        · rw [List.find?_cons_of_pos _ (by simpa using hpn), if_neg hnk,
            List.find?_cons_of_pos _ (by simpa using hpn)]
        · rw [List.find?_cons_of_neg _ (by simpa using hpn), ih, if_neg hnk, if_neg hnk,
            List.find?_cons_of_neg _ (by simpa using hpn)]

theorem lookupName_insert (m : List (String × Author)) (a : Author) (n : String) :
    lookupName (mapInsertAuthor m a) n =
      if n = a.name then some a else lookupName m n := by
  unfold mapInsertAuthor lookupName
  by_cases hmem : m.any (fun p => p.1 = a.name) = true
  · rw [if_pos hmem, find?_replace]
    by_cases hn : n = a.name
    · simp [hn, hmem]
    · simp [hn]
  · rw [if_neg hmem, List.find?_append]
    by_cases hn : n = a.name
    · have hnone : m.find? (fun p => decide (p.1 = n)) = none := by
        rw [List.find?_eq_none]
        intro p hp
        simp only [decide_eq_true_eq]
        intro hpn
        exact hmem (List.any_eq_true.2 ⟨p, hp, by simp [hpn, hn.symm]⟩)
      have hone : ((a.name, a).1 = n) := hn.symm
      rw [hnone, List.find?_cons_of_pos _ (by simpa using hone), Option.none_or,
        if_pos hn]
      rfl
    · have hone : ¬((a.name, a).1 = n) := fun h => hn h.symm
      rw [List.find?_cons_of_neg _ (by simpa using hone), if_neg hn]
      simp [Option.or_none]

theorem lookupName_foldl (arr : List Author) :
    ∀ (m : List (String × Author)) (n : String),
      lookupName (arr.foldl mapInsertAuthor m) n =
        match arr.reverse.find? (fun a => a.name = n) with
        | some a => some a
        | none => lookupName m n := by
  induction arr with
  | nil =>
    intro m n
    simp
  | cons a arr ih =>
    intro m n
    rw [List.foldl_cons, ih, List.reverse_cons, List.find?_append]
    cases h : arr.reverse.find? (fun x => x.name = n) with
    | some b => simp [h]
    | none =>
      simp only [h, Option.none_or]
      rw [lookupName_insert]
      by_cases hn : a.name = n
      · simp [hn, List.find?_cons]
      · have hn' : ¬(n = a.name) := fun h' => hn h'.symm
        simp [hn, hn', List.find?_cons]

/-- The keys of the `Map` under construction are exactly the stored authors'
names. -/
def ValOk (m : List (String × Author)) : Prop := ∀ p ∈ m, p.1 = p.2.name

theorem valOk_insert {m : List (String × Author)} (h : ValOk m) (a : Author) :
    ValOk (mapInsertAuthor m a) := by
  unfold mapInsertAuthor
  by_cases hmem : m.any (fun p => p.1 = a.name) = true
  · rw [if_pos hmem]
    intro p hp
    rw [List.mem_map] at hp
    obtain ⟨q, hq, hpq⟩ := hp
    by_cases hqk : q.1 = a.name
    · rw [← hpq]; simp [hqk]
    · rw [← hpq]; simp [hqk]; exact h q hq
  · rw [if_neg hmem]
    intro p hp
    rw [List.mem_append] at hp
    cases hp with
    | inl hp => exact h p hp
    | inr hp => simp at hp; rw [hp]

theorem valOk_foldl (arr : List Author) :
    ∀ (m : List (String × Author)), ValOk m → ValOk (arr.foldl mapInsertAuthor m) := by
  induction arr with
  | nil => intro m h; exact h
  | cons a arr ih =>
    intro m h
    rw [List.foldl_cons]
    exact ih _ (valOk_insert h a)

theorem keysNodup_insert {m : List (String × Author)}
    (h : (m.map Prod.fst).Nodup) (a : Author) :
    ((mapInsertAuthor m a).map Prod.fst).Nodup := by
  unfold mapInsertAuthor
  by_cases hmem : m.any (fun p => p.1 = a.name) = true
  · rw [if_pos hmem, List.map_map]
    have : m.map (Prod.fst ∘ fun p => if p.1 = a.name then (a.name, a) else p) =
        m.map Prod.fst := by
      apply List.map_congr_left
      intro p hp
      by_cases hpk : p.1 = a.name <;> simp [hpk]
    rw [this]
    exact h
  · rw [if_neg hmem, List.map_append]
    rw [List.nodup_append]
    refine ⟨h, by simp, ?_⟩
    intro x hx
    simp only [List.map_cons, List.map_nil, List.mem_singleton]
    intro hxa
    subst hxa
    rw [List.mem_map] at hx
    obtain ⟨p, hp, hpx⟩ := hx
    exact hmem (List.any_eq_true.2 ⟨p, hp, by simp [hpx]⟩)

theorem keysNodup_foldl (arr : List Author) :
    ∀ (m : List (String × Author)), (m.map Prod.fst).Nodup →
      ((arr.foldl mapInsertAuthor m).map Prod.fst).Nodup := by
  induction arr with
  | nil => intro m h; exact h
  | cons a arr ih =>
    intro m h
    rw [List.foldl_cons]
    exact ih _ (keysNodup_insert h a)

theorem find?_congr_mem {l : List α} {p q : α → Bool}
    (h : ∀ x ∈ l, p x = q x) : l.find? p = l.find? q := by
  induction l with
  | nil => rfl
  | cons a l ih =>
    have ha := h a (by simp)
    rw [List.find?_cons, List.find?_cons, ha]
    cases q a with
    | true => rfl
    | false => exact ih (fun x hx => h x (by simp [hx]))

/-- C4: the deduplicated author list contains no two entries with the same
name (case-sensitive), and for every name the retained entry is the last
author with that name in the concatenated input order (last-write-wins). -/
theorem getUniqueListBy_spec (arr : List Author) :
    ((getUniqueListBy arr).map (fun a => a.name)).Nodup ∧
    ∀ n, (getUniqueListBy arr).find? (fun a => a.name = n) =
      arr.reverse.find? (fun a => a.name = n) := by
  have hval : ValOk (arr.foldl mapInsertAuthor []) :=
    valOk_foldl arr [] (by intro p hp; cases hp)
  have hkeys : ((arr.foldl mapInsertAuthor []).map Prod.fst).Nodup :=
    keysNodup_foldl arr [] (by simp)
  constructor
  · unfold getUniqueListBy
    rw [List.map_map]
    have : (arr.foldl mapInsertAuthor []).map ((fun a => a.name) ∘ Prod.snd) =
        (arr.foldl mapInsertAuthor []).map Prod.fst := by
      apply List.map_congr_left
      intro p hp
      exact (hval p hp).symm
    rw [this]
    exact hkeys
  · intro n
    unfold getUniqueListBy
    rw [List.find?_map]
    have hc : (arr.foldl mapInsertAuthor []).find? ((fun a => decide (a.name = n)) ∘ Prod.snd) =
        (arr.foldl mapInsertAuthor []).find? (fun p => p.1 = n) := by
      apply find?_congr_mem
      intro p hp
      simp [Function.comp, hval p hp]
    rw [hc]
    have hl := lookupName_foldl arr [] n
    unfold lookupName at hl
    rw [hl]
    cases h : arr.reverse.find? (fun a => a.name = n) with
    | some b => rfl
    | none => simp

theorem squashRep_cons_ne (rep c : Char) (h : ¬c = rep) (m : List Char) :
    squashRep rep (c :: m) = c :: squashRep rep m := by
  cases m with
  | nil => rfl
  | cons d r => rw [squashRep, if_neg (fun hc => h hc.1)]

theorem replaceRuns_eq_squash (bad : Char → Bool) (rep : Char)
    (hrep : ∀ c, bad c = false → ¬c = rep) (l : List Char) :
    replaceRuns bad rep false l =
      squashRep rep (l.map (fun c => if bad c then rep else c)) ∧
    rep :: replaceRuns bad rep true l =
      squashRep rep (rep :: l.map (fun c => if bad c then rep else c)) := by
  induction l with
  | nil => exact ⟨rfl, rfl⟩
  | cons c r ih =>
    rw [List.map_cons]
    by_cases hc : bad c = true
    · rw [if_pos hc]
      constructor
      · rw [replaceRuns, if_pos hc]
        exact ih.2
      · rw [replaceRuns, if_pos hc]
        rw [squashRep, if_pos (show rep = rep ∧ rep = rep from ⟨rfl, rfl⟩)]
        exact ih.2
    · have hcf : bad c = false := by simpa using hc
      have hne : ¬c = rep := hrep c hcf
      rw [if_neg hc]
      constructor
      · rw [replaceRuns, if_neg hc, squashRep_cons_ne rep c hne]
        rw [ih.1]
      · rw [replaceRuns, if_neg hc]
        rw [squashRep, if_neg (fun hp => hne hp.2), squashRep_cons_ne rep c hne]
        rw [ih.1]

theorem squashRep_noTwo (rep : Char) (l : List Char) : NoTwo rep (squashRep rep l) := by
  induction l with
  | nil => exact List.chain'_nil
  | cons c r ih =>
    cases r with
    | nil => simp [squashRep, NoTwo]
    | cons d rest =>
      by_cases h : c = rep ∧ d = rep
      · rw [squashRep, if_pos h]
        exact ih
      · rw [squashRep, if_neg h]
        rw [NoTwo, List.chain'_cons']
        refine ⟨?_, ih⟩
        intro y hy
        by_cases hcrep : c = rep
        · have hd : ¬d = rep := fun hd => h ⟨hcrep, hd⟩
          rw [squashRep_cons_ne rep d hd] at hy
          simp only [List.head?_cons, Option.mem_def, Option.some.injEq] at hy
          subst hy
          exact fun hc => hd hc.2
        · exact fun hc => hcrep hc.1

theorem noTwo_tail {rep : Char} {l : List Char} (h : NoTwo rep l) : NoTwo rep l.tail :=
  List.Chain'.tail h

theorem noTwo_reverse {rep : Char} {l : List Char} (h : NoTwo rep l) :
    NoTwo rep l.reverse := by
  rw [NoTwo, List.chain'_reverse]
  exact List.Chain'.imp (fun a b hab hc => hab ⟨hc.2, hc.1⟩) h

theorem dropLeadHyphen_eq_dropWhile {l : List Char} (h : NoTwo '-' l) :
    dropLeadHyphen l = l.dropWhile (fun c => c = '-') := by
  cases l with
  | nil => rfl
  | cons c rest =>
    by_cases hc : c = '-'
    · subst hc
      rw [dropLeadHyphen, if_pos rfl]
      rw [List.dropWhile_cons_of_pos (by simp)]
      cases rest with
      | nil => rfl
      | cons d r =>
        have hd : ¬d = '-' := by
          rw [NoTwo, List.chain'_cons] at h
          exact fun hd => h.1 ⟨rfl, hd⟩
        rw [List.dropWhile_cons_of_neg (by simpa using hd)]
    · rw [List.dropWhile_cons_of_neg (by simpa using hc)]
      rw [dropLeadHyphen, if_neg hc]

theorem noTwo_dropLeadHyphen {l : List Char} (h : NoTwo '-' l) :
    NoTwo '-' (dropLeadHyphen l) := by
  cases l with
  | nil => exact h
  | cons c rest =>
    rw [dropLeadHyphen]
    by_cases hc : c = '-'
    · rw [if_pos hc]
      exact noTwo_tail h
    · rw [if_neg hc]
      exact h

theorem trimHyphens_eq_spec {l : List Char} (h : NoTwo '-' l) :
    trimHyphens l = trimHyphensSpec l := by
  unfold trimHyphens trimHyphensSpec
  rw [dropLeadHyphen_eq_dropWhile h]
  have h1 : NoTwo '-' (l.dropWhile (fun c => c = '-')) := by
    rw [← dropLeadHyphen_eq_dropWhile h]
    exact noTwo_dropLeadHyphen h
  have h2 : NoTwo '-' (l.dropWhile (fun c => c = '-')).reverse := noTwo_reverse h1
  rw [dropLeadHyphen_eq_dropWhile h2]

/-- C7: `slugify` returns the base path joined by `/` to the transformed
string — lowercased, diacritics stripped, every maximal run of characters
outside `[a-z0-9]` replaced by a single hyphen, leading and trailing hyphens
trimmed — with every run of consecutive slashes in the joined result
collapsed to a single slash. -/
theorem slugify_spec :
    (∀ (str base : String), slugify str base = slugifySpec str base) ∧
    slugify "Héllo, Wörld!" "/authors" = "/authors/hello-world" ∧
    slugify "--A B--" "/" = "/a-b" := by
  refine ⟨fun str base => ?_, by decide, by decide⟩
  simp only [slugify, slugifySpec]
  have hmask1 : ∀ (l : List Char),
      l.map (fun c => if (!isSlugChar c) = true then '-' else c) =
        l.map (fun c => if isSlugChar c then c else '-') := by
    intro l
    apply List.map_congr_left
    intro c _
    by_cases h : isSlugChar c = true <;> simp [h]
  have hmask2 : ∀ (l : List Char),
      l.map (fun c => if decide (c = '/') = true then '/' else c) = l := by
    intro l
    have hfun : (fun c : Char => if decide (c = '/') = true then '/' else c) = id := by
      funext c
      by_cases h : c = '/' <;> simp [h]
    rw [hfun, List.map_id]
  have hb1 : ∀ c : Char, (!isSlugChar c) = false → ¬c = '-' := by
    intro c h hc
    subst hc
    exact absurd h (by decide)
  have hb2 : ∀ c : Char, decide (c = '/') = false → ¬c = '/' := by
    intro c h
    simpa using h
  rw [(replaceRuns_eq_squash (fun c => !isSlugChar c) '-' hb1 _).1, hmask1,
    trimHyphens_eq_spec (squashRep_noTwo '-' _),
    (replaceRuns_eq_squash (fun c => decide (c = '/')) '/' hb2 _).1, hmask2]

end Novela
